import Mathlib

/-!
Verification development for the minimax chess engine in
`ai-engine/app/engine/minimax.py` (class `MinimaxEngine`).

The engine's own code (`_evaluate`, `_minimax`, `get_best_move`) is embedded
shallowly.  The rules engine (python-chess) is an external collaborator: it is
modelled as an abstract `Oracle` supplying terminal status, legal moves, move
application and the data `_evaluate` reads off the board.  Scores are integers
(centipawns) extended with the two float infinities the code uses as
initializers and window bounds (`float('-inf')`, `float('inf')`).
-/

/-- Scores as used by the search: integer centipawns extended with the two
float infinities appearing in `minimax.py` (`float('-inf')`, `float('inf')`).
Only comparison, `max`, `min` and negation are ever applied to them. -/
inductive XScore : Type where
  | negInf : XScore
  | fin : Int → XScore
  | posInf : XScore
deriving DecidableEq, Repr

namespace XScore

/-- Boolean order on extended scores. -/
def ble : XScore → XScore → Bool
  | negInf, _ => true
  | _, posInf => true
  | posInf, _ => false
  | _, negInf => false
  | fin a, fin b => decide (a ≤ b)

instance instLO : LinearOrder XScore where
  le a b := ble a b = true
  le_refl a := by cases a <;> simp [ble]
  le_trans a b c hab hbc := by
    cases a <;> cases b <;> cases c <;> simp_all [ble] <;> omega
  le_antisymm a b hab hba := by
    cases a <;> cases b <;> simp_all [ble] <;> omega
  le_total a b := by
    cases a <;> cases b <;> simp [ble] <;> omega
  decidableLE a b := inferInstanceAs (Decidable (ble a b = true))

instance (a b : XScore) : Decidable (a ≤ b) := instLO.decidableLE a b

instance (a b : XScore) : Decidable (a < b) := instLO.decidableLT a b

/-- Negation, as applied by `get_best_move` to scores and window bounds. -/
def neg : XScore → XScore
  | negInf => posInf
  | posInf => negInf
  | fin v => fin (-v)

instance : Bot XScore := ⟨negInf⟩
instance : Top XScore := ⟨posInf⟩

instance : OrderBot XScore :=
  ⟨fun a => by cases a <;> exact rfl⟩

instance : OrderTop XScore :=
  ⟨fun a => by cases a <;> exact rfl⟩

end XScore

/-- The Position Oracle interface of the spec (§6): the external rules engine
(python-chess) as consumed by `minimax.py`.  `eval` is the composition of
`MinimaxEngine._evaluate` with the oracle's board queries: a pure integer
(centipawn) score per position. -/
structure Oracle (π : Type) where
  isGameOver : π → Bool
  legalMoves : π → List Nat
  apply : π → Nat → π
  eval : π → Int

/-- A python-chess board as mutated by the search: the current position plus
the move stack that `push` grows and `pop` shrinks (popping restores the
previous position). -/
abbrev Bd (π : Type) := π × List (Nat × π)

/-- `board.push(move)`. -/
def push {π : Type} (O : Oracle π) (b : Bd π) (m : Nat) : Bd π :=
  (O.apply b.1 m, (m, b.1) :: b.2)

/-- `board.pop()`: restore the position saved by the matching `push`. -/
def pop {π : Type} (b : Bd π) : Bd π :=
  match b.2 with
  | [] => b
  | (_, p) :: s => (p, s)

/-! ## The evaluator (`MinimaxEngine._evaluate`) -/

inductive PieceType : Type where
  | pawn | knight | bishop | rook | queen | king
deriving DecidableEq, Repr

structure Piece where
  color : Bool   -- `piece.color`: `true` = white (the reference side)
  ptype : PieceType
deriving DecidableEq, Repr

/-- `MinimaxEngine.PIECE_VALUES` (centipawns). -/
def PIECE_VALUES : PieceType → Int
  | .pawn => 100
  | .knight => 320
  | .bishop => 330
  | .rook => 500
  | .queen => 900
  | .king => 20000

/-- `MinimaxEngine.PAWN_TABLE`. -/
def PAWN_TABLE : List Int :=
  [0,  0,  0,  0,  0,  0,  0,  0,
   50, 50, 50, 50, 50, 50, 50, 50,
   10, 10, 20, 30, 30, 20, 10, 10,
   5,  5, 10, 25, 25, 10,  5,  5,
   0,  0,  0, 20, 20,  0,  0,  0,
   5, -5,-10,  0,  0,-10, -5,  5,
   5, 10, 10,-20,-20, 10, 10,  5,
   0,  0,  0,  0,  0,  0,  0,  0]

/-- `MinimaxEngine.KNIGHT_TABLE`. -/
def KNIGHT_TABLE : List Int :=
  [-50,-40,-30,-30,-30,-30,-40,-50,
   -40,-20,  0,  0,  0,  0,-20,-40,
   -30,  0, 10, 15, 15, 10,  0,-30,
   -30,  5, 15, 20, 20, 15,  5,-30,
   -30,  0, 15, 20, 20, 15,  0,-30,
   -30,  5, 10, 15, 15, 10,  5,-30,
   -40,-20,  0,  5,  5,  0,-20,-40,
   -50,-40,-30,-30,-30,-30,-40,-50]

/-- Positional bonus of one piece on one square (`_evaluate`, lines 176-181):
pawns and knights read their table at `square` for white and `63 - square`
for black; every other piece kind contributes `0`. -/
def posBonus (p : Piece) (sq : Nat) : Int :=
  match p.ptype with
  | .pawn => PAWN_TABLE.getD (if p.color then sq else 63 - sq) 0
  | .knight => KNIGHT_TABLE.getD (if p.color then sq else 63 - sq) 0
  | _ => 0

/-- `MinimaxEngine._evaluate`.  The board is the oracle's piece placement
(64 squares, square 0 = a1), `turn` is the side to move (`true` = white),
the three terminal flags and the legal-move count `mob` are the oracle
queries the function makes (`is_checkmate`, `is_stalemate`,
`is_insufficient_material`, `len(list(board.legal_moves))`).  Returns
centipawns from white's perspective. -/
def evaluate (board : List (Option Piece)) (turn checkmate stalemate insufficient : Bool)
    (mob : Nat) : Int :=
  if checkmate then (if turn then -20000 else 20000)
  else if stalemate || insufficient then 0
  else
    let material := (List.range 64).foldl
      (fun acc sq =>
        match board.getD sq none with
        | none => acc
        | some p =>
          let total := PIECE_VALUES p.ptype + posBonus p sq
          if p.color then acc + total else acc - total)
      0
    material + (if turn then (10 : Int) * mob else -((10 : Int) * mob))

/-! ## The search (`MinimaxEngine._minimax`) -/

/-- Result of one `_minimax` activation: the returned score, the board as the
callee leaves it, and the value of `self.nodes_searched` on return. -/
structure MRes (π : Type) where
  score : XScore
  bd : Bd π
  n : Nat

/-- The maximizing loop of `_minimax` (lines 124-137): fail-soft max with
`alpha` tightening and a beta cutoff.  `f` is the recursive call at
`depth - 1` with `maximizing = False`. -/
def abLoopMax {π : Type} (O : Oracle π) (f : Bd π → XScore → XScore → Nat → MRes π) :
    List Nat → Bd π → XScore → XScore → XScore → Nat → MRes π
  | [], bd, maxEval, _, _, n => ⟨maxEval, bd, n⟩
  | m :: ms, bd, maxEval, alpha, beta, n =>
    let r := f (push O bd m) alpha beta n
    let bd2 := pop r.bd
    let maxEval2 := max maxEval r.score
    let alpha2 := max alpha r.score
    if beta ≤ alpha2 then ⟨maxEval2, bd2, r.n⟩
    else abLoopMax O f ms bd2 maxEval2 alpha2 beta r.n

/-- The minimizing loop of `_minimax` (lines 138-151): fail-soft min with
`beta` tightening and an alpha cutoff.  `f` is the recursive call at
`depth - 1` with `maximizing = True`. -/
def abLoopMin {π : Type} (O : Oracle π) (f : Bd π → XScore → XScore → Nat → MRes π) :
    List Nat → Bd π → XScore → XScore → XScore → Nat → MRes π
  | [], bd, minEval, _, _, n => ⟨minEval, bd, n⟩
  | m :: ms, bd, minEval, alpha, beta, n =>
    let r := f (push O bd m) alpha beta n
    let bd2 := pop r.bd
    let minEval2 := min minEval r.score
    let beta2 := min beta r.score
    if beta2 ≤ alpha then ⟨minEval2, bd2, r.n⟩
    else abLoopMin O f ms bd2 minEval2 alpha beta2 r.n

/-- `MinimaxEngine._minimax(board, depth, alpha, beta, maximizing)`.
Increments the node counter first, returns `_evaluate` at depth 0 or on a
terminal position, and otherwise runs the maximizing or minimizing
alpha-beta loop over the oracle's legal moves. -/
def minimax {π : Type} (O : Oracle π) : Nat → Bool → Bd π → XScore → XScore → Nat → MRes π
  | 0, _, bd, _, _, n => ⟨.fin (O.eval bd.1), bd, n + 1⟩
  | d + 1, maximizing, bd, alpha, beta, n =>
    if O.isGameOver bd.1 then ⟨.fin (O.eval bd.1), bd, n + 1⟩
    else if maximizing then
      abLoopMax O (minimax O d false) (O.legalMoves bd.1) bd ⊥ alpha beta (n + 1)
    else
      abLoopMin O (minimax O d true) (O.legalMoves bd.1) bd ⊤ alpha beta (n + 1)

/-! ## The controller (`MinimaxEngine.get_best_move`) -/

/-- Errors raised by `get_best_move`: the spec's `GameOverError`
(`ValueError("Game is over")`, line 68) and `NoLegalMovesError`
(`ValueError("No legal moves available")`, line 73). -/
inductive EngineError : Type where
  | gameOver | noLegalMoves
deriving DecidableEq, Repr

/-- The tuple `get_best_move` returns:
`(move_uci, score, depth, nodes, principal_variation)`.  `scoreCp` is the
score in centipawns before the final `best_score / 100.0` conversion to
pawns (the conversion divides by the constant 100 and is monotone). -/
structure SearchResult where
  bestMove : Nat
  scoreCp : XScore
  depth : Nat
  nodes : Nat
  pv : List Nat
deriving DecidableEq, Repr

instance {ε α : Type} [DecidableEq ε] [DecidableEq α] : DecidableEq (Except ε α)
  | .error e, .error e' =>
    if h : e = e' then .isTrue (h ▸ rfl) else .isFalse (fun hh => h (Except.error.inj hh))
  | .error _, .ok _ => .isFalse Except.noConfusion
  | .ok _, .error _ => .isFalse Except.noConfusion
  | .ok a, .ok b =>
    if h : a = b then .isTrue (h ▸ rfl) else .isFalse (fun hh => h (Except.ok.inj hh))

/-- State of the root loop of `get_best_move` (lines 76-90) after processing
a prefix of the legal moves. -/
structure RRes (π : Type) where
  bm : Option Nat
  best : XScore
  alpha : XScore
  bd : Bd π
  n : Nat

/-- The root loop of `get_best_move` (lines 81-90): for each legal move,
push, call `_minimax` one ply down with the NEGATED window and negate its
result (line 83: `score = -self._minimax(board, self.depth - 1, -beta,
-alpha, False)`), pop, keep the strictly best score, and raise `alpha`.
`beta` is never changed and there is no cutoff at the root. -/
def rootLoop {π : Type} (O : Oracle π) (f : Bd π → XScore → XScore → Nat → MRes π) :
    List Nat → Bd π → Option Nat → XScore → XScore → XScore → Nat → RRes π
  | [], bd, bm, best, alpha, _, n => ⟨bm, best, alpha, bd, n⟩
  | m :: ms, bd, bm, best, alpha, beta, n =>
    let r := f (push O bd m) beta.neg alpha.neg n
    let bd2 := pop r.bd
    let score := r.score.neg
    let bm2 := if best < score then some m else bm
    let best2 := if best < score then score else best
    let alpha2 := max alpha score
    rootLoop O f ms bd2 bm2 best2 alpha2 beta r.n

/-- `MinimaxEngine.get_best_move(fen)`.  `p` is the position the oracle
builds from the FEN string, `depth` is `self.depth` (the configured depth,
`>= 1` in every claim; note line 83 searches children at `self.depth - 1`).
`choice` models `random.choice` on the fallback branch (line 94): it picks
an element index-free from the legal-move list however the RNG state
dictates.  `nodes0` and `pv0` are the stale instance fields
`self.nodes_searched` / `self.pv` left by a previous invocation; lines 64-65
reset them before anything else, which is why the result never depends on
them. -/
def get_best_move {π : Type} (O : Oracle π) (p : π) (depth : Nat)
    (choice : List Nat → Nat) (nodes0 : Nat) (pv0 : List Nat) :
    Except EngineError SearchResult :=
  -- self.nodes_searched = 0 ; self.pv = []  (lines 64-65): nodes0/pv0 discarded
  let _ := nodes0
  let _ := pv0
  if O.isGameOver p then .error .gameOver
  else
    let legal := O.legalMoves p
    if legal.isEmpty then .error .noLegalMoves
    else
      let r := rootLoop O (minimax O (depth - 1) false) legal (p, []) none ⊥ ⊥ ⊤ 0
      match r.bm with
      | some m => .ok ⟨m, r.best, depth, r.n, [m]⟩
      | none => .ok ⟨choice legal, .fin 0, depth, r.n, [choice legal]⟩

/-! ## Spec-side definitions -/

/-- The full, unpruned minimax value over the same tree: same oracle move
order, same leaf evaluator, no window.  This is the spec's reference point
for the pruning-equivalence property (§8): maximizing levels fold `max`
starting from `-inf`, minimizing levels fold `min` starting from `+inf`,
exactly as the loops of `_minimax` would without cutoffs. -/
def plainMinimax {π : Type} (O : Oracle π) : Nat → Bool → π → XScore
  | 0, _, p => .fin (O.eval p)
  | d + 1, maximizing, p =>
    if O.isGameOver p then .fin (O.eval p)
    else if maximizing then
      (O.legalMoves p).foldl (fun a m => max a (plainMinimax O d false (O.apply p m))) ⊥
    else
      (O.legalMoves p).foldl (fun a m => min a (plainMinimax O d true (O.apply p m))) ⊤

/-- Modelled from the spec: the root loop of the Search Controller under the
consistent classic-minimax convention (§4.2 design note, option (a), and
§4.3 step 4): the Controller consumes the absolute scores returned by the
recursive search directly — no negation of the result, and the `(alpha,
beta)` window is passed through unnegated. -/
def specRootLoop {π : Type} (O : Oracle π) (f : Bd π → XScore → XScore → Nat → MRes π) :
    List Nat → Bd π → Option Nat → XScore → XScore → XScore → Nat → RRes π
  | [], bd, bm, best, alpha, _, n => ⟨bm, best, alpha, bd, n⟩
  | m :: ms, bd, bm, best, alpha, beta, n =>
    let r := f (push O bd m) alpha beta n
    let bd2 := pop r.bd
    let bm2 := if best < r.score then some m else bm
    let best2 := if best < r.score then r.score else best
    let alpha2 := max alpha r.score
    specRootLoop O f ms bd2 bm2 best2 alpha2 beta r.n

/-- Modelled from the spec: `getBestMove` under the consistent convention
(§4.3) — identical to `get_best_move` except that the root consumes the
recursive search's absolute scores directly, with no extra negation and an
unnegated window.  The defensive fallback picks the first legal move
deterministically with score 0 (§4.3 step 6). -/
def spec_get_best_move {π : Type} (O : Oracle π) (p : π) (depth : Nat) :
    Except EngineError SearchResult :=
  if O.isGameOver p then .error .gameOver
  else
    let legal := O.legalMoves p
    if legal.isEmpty then .error .noLegalMoves
    else
      let r := specRootLoop O (minimax O (depth - 1) false) legal (p, []) none ⊥ ⊥ ⊤ 0
      match r.bm with
      | some m => .ok ⟨m, r.best, depth, r.n, [m]⟩
      | none => .ok ⟨legal.headD 0, .fin 0, depth, r.n, [legal.headD 0]⟩

/-- Number of `_minimax` activations performed by the maximizing loop:
pure instrumentation replicating the loop's control flow (the cutoff
decisions use the scores `f` returns, via `minimax` itself) without
threading the mutable counter. -/
def countMax {π : Type} (O : Oracle π) (f : Bd π → XScore → XScore → Nat → MRes π)
    (g : Bd π → XScore → XScore → Nat) :
    List Nat → Bd π → XScore → XScore → Nat
  | [], _, _, _ => 0
  | m :: ms, bd, alpha, beta =>
    let s := (f (push O bd m) alpha beta 0).score
    let c := g (push O bd m) alpha beta
    let alpha2 := max alpha s
    if beta ≤ alpha2 then c
    else c + countMax O f g ms bd alpha2 beta

/-- Number of `_minimax` activations performed by the minimizing loop. -/
def countMin {π : Type} (O : Oracle π) (f : Bd π → XScore → XScore → Nat → MRes π)
    (g : Bd π → XScore → XScore → Nat) :
    List Nat → Bd π → XScore → XScore → Nat
  | [], _, _, _ => 0
  | m :: ms, bd, alpha, beta =>
    let s := (f (push O bd m) alpha beta 0).score
    let c := g (push O bd m) alpha beta
    let beta2 := min beta s
    if beta2 ≤ alpha then c
    else c + countMin O f g ms bd alpha beta2

/-- Total number of `_minimax` activations of one search call: 1 for the
activation itself (every activation, leaves and terminal nodes included)
plus the activations of the explored children. -/
def countActs {π : Type} (O : Oracle π) : Nat → Bool → Bd π → XScore → XScore → Nat
  | 0, _, _, _, _ => 1
  | d + 1, maximizing, bd, alpha, beta =>
    if O.isGameOver bd.1 then 1
    else if maximizing then
      1 + countMax O (minimax O d false) (countActs O d false) (O.legalMoves bd.1) bd alpha beta
    else
      1 + countMin O (minimax O d true) (countActs O d true) (O.legalMoves bd.1) bd alpha beta

/-- Number of `_minimax` activations performed by the root loop of
`get_best_move`, replicating its window evolution. -/
def rootCount {π : Type} (O : Oracle π) (f : Bd π → XScore → XScore → Nat → MRes π)
    (g : Bd π → XScore → XScore → Nat) :
    List Nat → Bd π → XScore → XScore → Nat
  | [], _, _, _ => 0
  | m :: ms, bd, alpha, beta =>
    let s := (f (push O bd m) beta.neg alpha.neg 0).score
    g (push O bd m) beta.neg alpha.neg + rootCount O f g ms bd (max alpha s.neg) beta

/-- Total number of search activations of one `get_best_move` invocation. -/
def nodesCounted {π : Type} (O : Oracle π) (p : π) (depth : Nat) : Nat :=
  rootCount O (minimax O (depth - 1) false) (countActs O (depth - 1) false)
    (O.legalMoves p) (p, []) ⊥ ⊤

/-- The fail-soft alpha-beta contract (Knuth-Moore): relative to the window
`(alpha, beta)`, the returned score `r` is exact when the true score `T`
lies inside the window, an upper bound on `T` when `T` fails low, and a
lower bound when `T` fails high. -/
structure KM (alpha beta T r : XScore) : Prop where
  low : T ≤ alpha → T ≤ r ∧ r ≤ alpha
  inside : alpha < T → T < beta → r = T
  high : beta ≤ T → beta ≤ r ∧ r ≤ T

/-- The Position Oracle contract the rules engine satisfies (spec §4.2/§7):
a position with no legal moves is terminal (in chess, no legal moves means
checkmate or stalemate, and `is_game_over` reports it). -/
abbrev WfOracle {π : Type} (O : Oracle π) : Prop :=
  ∀ q : π, O.legalMoves q = [] → O.isGameOver q = true

/-! ## Concrete boards and oracles used in counterexamples and witnesses -/

/-- Deterministic stand-in for the RNG state behind `random.choice`. -/
def ch0 : List Nat → Nat := fun l => l.headD 0

def W (t : PieceType) : Option Piece := some ⟨true, t⟩

def B (t : PieceType) : Option Piece := some ⟨false, t⟩

/-- The canonical initial chess position (square 0 = a1 ... square 63 = h8). -/
def startBoard : List (Option Piece) :=
  [W .rook, W .knight, W .bishop, W .queen, W .king, W .bishop, W .knight, W .rook] ++
  List.replicate 8 (W .pawn) ++
  List.replicate 32 none ++
  List.replicate 8 (B .pawn) ++
  [B .rook, B .knight, B .bishop, B .queen, B .king, B .bishop, B .knight, B .rook]

def emptyBoard : List (Option Piece) := List.replicate 64 none

def place (b : List (Option Piece)) (sq : Nat) (p : Option Piece) : List (Option Piece) :=
  b.set sq p

/-- White Ke1, Rh1 vs black Ke8 (black to move): +500 material for white. -/
def boardC1A : List (Option Piece) :=
  place (place (place emptyBoard 4 (W .king)) 7 (W .rook)) 60 (B .king)

/-- White Ke1 vs black Ke8, Ra8 (black to move): -500 material for white. -/
def boardC1B : List (Option Piece) :=
  place (place (place emptyBoard 4 (W .king)) 60 (B .king)) 56 (B .rook)

/-- White Ke1, Rh1 vs black Ke8, Ra8, white to move (the C1 root). -/
def boardC1R : List (Option Piece) :=
  place (place (place (place emptyBoard 4 (W .king)) 7 (W .rook)) 60 (B .king)) 56 (B .rook)

/-- A two-move position for C1: position 0 is the root (white to move),
move 0 leads to position 1 (white a rook up, static score +450), move 1
leads to position 2 (white a rook down, static score -650).  `eval` is
`_evaluate` on the concrete boards with the oracle-reported mobility. -/
def oracleC1 : Oracle (Fin 3) where
  isGameOver := fun _ => false
  legalMoves := fun i => if i.val = 0 then [0, 1] else []
  apply := fun i m => if i.val = 0 then (if m = 0 then 1 else 2) else i
  eval := fun i =>
    if i.val = 1 then evaluate boardC1A false false false false 5
    else if i.val = 2 then evaluate boardC1B false false false false 15
    else evaluate boardC1R true false false false 20

/-- White Kg6, Rh1 vs black Kg8, white to move (mate in one by Rh8#). -/
def boardC2R : List (Option Piece) :=
  place (place (place emptyBoard 46 (W .king)) 7 (W .rook)) 62 (B .king)

/-- After Rh8#: checkmate, black to move. -/
def boardC2M : List (Option Piece) :=
  place (place (place emptyBoard 46 (W .king)) 63 (W .rook)) 62 (B .king)

/-- After the quiet Rh2: black to move with one legal move (Kf8). -/
def boardC2Q : List (Option Piece) :=
  place (place (place emptyBoard 46 (W .king)) 15 (W .rook)) 62 (B .king)

/-- The C2 position: root 0 = white Kg6, Rh1 vs black Kg8 (mate in one);
move 0 = Rh8# (position 1, checkmate), move 1 = Rh2 (position 2, quiet).
`eval` is `_evaluate` on the concrete boards and terminal flags. -/
def oracleC2 : Oracle (Fin 3) where
  isGameOver := fun i => decide (i.val = 1)
  legalMoves := fun i => if i.val = 0 then [0, 1] else []
  apply := fun i m => if i.val = 0 then (if m = 0 then 1 else 2) else i
  eval := fun i =>
    if i.val = 1 then evaluate boardC2M false true false false 0
    else if i.val = 2 then evaluate boardC2Q false false false false 1
    else evaluate boardC2R true false false false 17

/-- Small well-formed game tree for witnesses: root 0 (two moves, to the
terminal leaves 1 and 2), every move-less position terminal. -/
def oracleW : Oracle (Fin 3) where
  isGameOver := fun i => decide (0 < i.val)
  legalMoves := fun i => if i.val = 0 then [0, 1] else []
  apply := fun i m => if i.val = 0 then (if m = 0 then 1 else 2) else i
  eval := fun i => if i.val = 1 then 7 else -3

/-- Game tree refuting node-count monotonicity in the configured depth:
0 = root (one move, to 1); 1 has children 2 and 3; 2 has child 4, 3 has
children 5,6,7,8; 4 has child 9, 5 has child 10, 6,7,8 have child 11;
9,10,11 are terminal.  Static scores: 4 ↦ 0, 5..8 ↦ -1, 9 ↦ 0, 10 ↦ 5,
11 ↦ 0, interior ↦ 0. -/
def oracleC8 : Oracle (Fin 12) where
  isGameOver := fun i => decide (9 ≤ i.val)
  legalMoves := fun i =>
    if i.val = 0 then [0]
    else if i.val = 1 then [0, 1]
    else if i.val = 2 then [0]
    else if i.val = 3 then [0, 1, 2, 3]
    else if i.val ≤ 8 then [0]
    else []
  apply := fun i m =>
    if i.val = 0 then 1
    else if i.val = 1 then (if m = 0 then 2 else 3)
    else if i.val = 2 then 4
    else if i.val = 3 then (if m = 0 then 5 else if m = 1 then 6 else if m = 2 then 7 else 8)
    else if i.val = 4 then 9
    else if i.val = 5 then 10
    else if i.val ≤ 8 then 11
    else i
  eval := fun i =>
    if i.val = 10 then 5
    else if 5 ≤ i.val ∧ i.val ≤ 8 then -1
    else 0

/-! ## Basic lemmas -/

lemma pop_push {π : Type} (O : Oracle π) (b : Bd π) (m : Nat) : pop (push O b m) = b := rfl

lemma XScore.bot_lt_fin (v : Int) : (⊥ : XScore) < .fin v :=
  lt_of_le_of_ne bot_le (fun h => XScore.noConfusion h)

lemma XScore.fin_lt_top (v : Int) : (.fin v : XScore) < ⊤ :=
  lt_of_le_of_ne le_top (fun h => XScore.noConfusion h)

lemma XScore.bot_lt_top : (⊥ : XScore) < ⊤ :=
  lt_of_le_of_ne bot_le (fun h => XScore.noConfusion h)

/-! ## State lemmas: board restoration, node counting, counter independence

`hf` below packages the inductive hypothesis about the recursive call `f`:
its score does not depend on the incoming counter, it returns the board it
was given, and it adds `g` of its arguments to the counter. -/

section StateLemmas

variable {π : Type} (O : Oracle π) (f : Bd π → XScore → XScore → Nat → MRes π)
  (g : Bd π → XScore → XScore → Nat)

lemma abLoopMax_state
    (hf : ∀ bd a b n, f bd a b n = ⟨(f bd a b 0).score, bd, n + g bd a b⟩) :
    ∀ ms bd a α β n, abLoopMax O f ms bd a α β n =
      ⟨(abLoopMax O f ms bd a α β 0).score, bd, n + countMax O f g ms bd α β⟩ := by
  intro ms
  induction ms with
  | nil => intro bd a α β n; simp [abLoopMax, countMax]
  | cons m ms ih =>
    intro bd a α β n
    rw [abLoopMax, abLoopMax, countMax]
    rw [hf (push O bd m) α β n, hf (push O bd m) α β 0]
    simp only [pop_push]
    by_cases hcut : β ≤ max α (f (push O bd m) α β 0).score
    · simp [hcut]
    · simp only [hcut, if_false]
      rw [ih, ih bd (max a (f (push O bd m) α β 0).score)
            (max α (f (push O bd m) α β 0).score) β (0 + g (push O bd m) α β)]
      simp [Nat.add_assoc]

lemma abLoopMin_state
    (hf : ∀ bd a b n, f bd a b n = ⟨(f bd a b 0).score, bd, n + g bd a b⟩) :
    ∀ ms bd a α β n, abLoopMin O f ms bd a α β n =
      ⟨(abLoopMin O f ms bd a α β 0).score, bd, n + countMin O f g ms bd α β⟩ := by
  intro ms
  induction ms with
  | nil => intro bd a α β n; simp [abLoopMin, countMin]
  | cons m ms ih =>
    intro bd a α β n
    rw [abLoopMin, abLoopMin, countMin]
    rw [hf (push O bd m) α β n, hf (push O bd m) α β 0]
    simp only [pop_push]
    by_cases hcut : min β (f (push O bd m) α β 0).score ≤ α
    · simp [hcut]
    · simp only [hcut, if_false]
      rw [ih, ih bd (min a (f (push O bd m) α β 0).score) α
            (min β (f (push O bd m) α β 0).score) (0 + g (push O bd m) α β)]
      simp [Nat.add_assoc]

lemma rootLoop_state
    (hf : ∀ bd a b n, f bd a b n = ⟨(f bd a b 0).score, bd, n + g bd a b⟩) :
    ∀ ms bd bm best α β n, rootLoop O f ms bd bm best α β n =
      ⟨(rootLoop O f ms bd bm best α β 0).bm, (rootLoop O f ms bd bm best α β 0).best,
       (rootLoop O f ms bd bm best α β 0).alpha, bd,
       n + rootCount O f g ms bd α β⟩ := by
  intro ms
  induction ms with
  | nil => intro bd bm best α β n; simp [rootLoop, rootCount]
  | cons m ms ih =>
    intro bd bm best α β n
    rw [rootLoop, rootLoop, rootCount]
    rw [hf (push O bd m) β.neg α.neg n, hf (push O bd m) β.neg α.neg 0]
    simp only [pop_push]
    rw [ih, ih bd _ _ (max α ((f (push O bd m) β.neg α.neg 0).score).neg) β
          (0 + g (push O bd m) β.neg α.neg)]
    simp [Nat.add_assoc]

end StateLemmas

/-- Board restoration, counter additivity and counter-independence of the
score for `_minimax`, all at once: an activation started at counter `n`
returns the board unchanged, the same score as one started at counter `0`,
and the counter advanced by exactly its number of activations. -/
lemma minimax_state {π : Type} (O : Oracle π) :
    ∀ d mx bd α β n, minimax O d mx bd α β n =
      ⟨(minimax O d mx bd α β 0).score, bd, n + countActs O d mx bd α β⟩ := by
  intro d
  induction d with
  | zero => intro mx bd α β n; simp [minimax, countActs]
  | succ d ih =>
    intro mx bd α β n
    by_cases hover : O.isGameOver bd.1
    · simp [minimax, countActs, hover]
    · cases mx with
      | false =>
        simp only [minimax, countActs, hover, Bool.false_eq_true, if_false, if_neg]
        rw [abLoopMin_state O (minimax O d true) (countActs O d true) (ih true)]
        rw [abLoopMin_state O (minimax O d true) (countActs O d true) (ih true)
              (O.legalMoves bd.1) bd ⊤ α β (0 + 1)]
        simp [Nat.add_assoc, Nat.add_comm]
      | true =>
        simp only [minimax, countActs, hover, if_true, if_neg]
        rw [abLoopMax_state O (minimax O d false) (countActs O d false) (ih false)]
        rw [abLoopMax_state O (minimax O d false) (countActs O d false) (ih false)
              (O.legalMoves bd.1) bd ⊥ α β (0 + 1)]
        simp [Nat.add_assoc, Nat.add_comm]

/-! ## Projections of the state lemma -/

lemma minimax_bd {π : Type} (O : Oracle π) (d : Nat) (mx : Bool) (bd : Bd π)
    (α β : XScore) (n : Nat) : (minimax O d mx bd α β n).bd = bd := by
  rw [minimax_state]

lemma minimax_n {π : Type} (O : Oracle π) (d : Nat) (mx : Bool) (bd : Bd π)
    (α β : XScore) (n : Nat) : (minimax O d mx bd α β n).n = n + countActs O d mx bd α β := by
  rw [minimax_state]

lemma rootLoop_inst_state {π : Type} (O : Oracle π) (d : Nat) :
    ∀ ms bd bm best α β n, rootLoop O (minimax O d false) ms bd bm best α β n =
      ⟨(rootLoop O (minimax O d false) ms bd bm best α β 0).bm,
       (rootLoop O (minimax O d false) ms bd bm best α β 0).best,
       (rootLoop O (minimax O d false) ms bd bm best α β 0).alpha, bd,
       n + rootCount O (minimax O d false) (countActs O d false) ms bd α β⟩ :=
  rootLoop_state O (minimax O d false) (countActs O d false)
    (fun bd a b n => by rw [minimax_state O d false bd a b n])

/-! ## The Knuth-Moore invariant: fail-soft alpha-beta against plain minimax -/

lemma KM_self (α β T : XScore) : KM α β T T :=
  ⟨fun h => ⟨le_rfl, h⟩, fun _ _ => rfl, fun h => ⟨h, le_rfl⟩⟩

lemma init_le_foldl_max (w : Nat → XScore) :
    ∀ (ms : List Nat) (X : XScore), X ≤ ms.foldl (fun x m => max x (w m)) X := by
  intro ms
  induction ms with
  | nil => intro X; simp
  | cons m ms ih =>
    intro X
    rw [List.foldl_cons]
    exact le_trans (le_max_left X (w m)) (ih (max X (w m)))

lemma foldl_min_le_init (w : Nat → XScore) :
    ∀ (ms : List Nat) (X : XScore), ms.foldl (fun x m => min x (w m)) X ≤ X := by
  intro ms
  induction ms with
  | nil => intro X; simp
  | cons m ms ih =>
    intro X
    rw [List.foldl_cons]
    exact le_trans (ih (min X (w m))) (min_le_left X (w m))

/-- The maximizing loop satisfies the fail-soft contract with respect to the
running true value: `P` is the true maximum over the already-explored
siblings, `a` the accumulated `max_eval`, and the loop's `alpha` argument is
`max α0 a` for the node's incoming `α0`. -/
lemma abLoopMaxKM {π : Type} (O : Oracle π) (f : Bd π → XScore → XScore → Nat → MRes π)
    (bd : Bd π) (w : Nat → XScore) (β : XScore)
    (hf : ∀ m α' n, α' < β → KM α' β (w m) ((f (push O bd m) α' β n).score))
    (hfb : ∀ bd' α' β' n, (f bd' α' β' n).bd = bd') :
    ∀ ms P a α0 n, P ≤ a → a ≤ max P α0 → max α0 a < β →
      KM α0 β (ms.foldl (fun x m => max x (w m)) P)
        ((abLoopMax O f ms bd a (max α0 a) β n).score) := by
  intro ms
  induction ms with
  | nil =>
    intro P a α0 n hPa haP hW
    have hαβ : α0 < β := lt_of_le_of_lt (le_max_left _ _) hW
    simp only [List.foldl_nil, abLoopMax]
    refine ⟨fun hT => ⟨hPa, haP.trans (max_le hT le_rfl)⟩, fun h1 _ => ?_, fun h3 => ?_⟩
    · exact le_antisymm (haP.trans (max_le le_rfl h1.le)) hPa
    · exact ⟨h3.trans hPa, haP.trans (max_le le_rfl (hαβ.le.trans h3))⟩
  | cons m ms ih =>
    intro P a α0 n hPa haP hW
    have hαβ : α0 < β := lt_of_le_of_lt (le_max_left _ _) hW
    have hKM := hf m (max α0 a) n hW
    rw [List.foldl_cons, abLoopMax]
    simp only [hfb, pop_push]
    set s := (f (push O bd m) (max α0 a) β n).score with hs
    by_cases hcut : β ≤ max (max α0 a) s
    · rw [if_pos hcut]
      have hβs : β ≤ s := (le_max_iff.mp hcut).resolve_left (not_le.mpr hW)
      have hwm : β ≤ w m := by
        rcases le_or_lt (w m) (max α0 a) with h | h
        · exact absurd (lt_of_le_of_lt (hKM.low h).2 hW) (not_lt.mpr hβs)
        · rcases lt_or_le (w m) β with h2 | h2
          · exact hKM.inside h h2 ▸ hβs
          · exact h2
      have hKM3 := hKM.high hwm
      have wmT : w m ≤ (ms.foldl (fun x m => max x (w m)) (max P (w m))) :=
        le_trans (le_max_right P (w m)) (init_le_foldl_max w ms (max P (w m)))
      have haT : a ≤ w m :=
        le_trans (le_trans (le_max_right α0 a) hW.le) hwm
      refine ⟨fun hT => ?_, fun _ h2 => ?_, fun _ => ?_⟩
      · exact absurd (lt_of_le_of_lt (hwm.trans (wmT.trans hT)) hαβ) (lt_irrefl β)
      · exact absurd h2 (not_lt.mpr (hwm.trans wmT))
      · exact ⟨hKM3.1.trans (le_max_right a s),
          max_le (haT.trans wmT) (hKM3.2.trans wmT)⟩
    · rw [if_neg hcut]
      have hW2 : max (max α0 a) s < β := not_le.mp hcut
      have hsw : w m ≤ max a s ∧ s ≤ max (max P (w m)) α0 := by
        rcases le_or_lt (w m) (max α0 a) with h | h
        · have h1 := hKM.low h
          refine ⟨h1.1.trans (le_max_right a s), ?_⟩
          calc s ≤ max α0 a := h1.2
            _ ≤ max α0 (max P α0) := max_le_max le_rfl haP
            _ ≤ max P α0 := max_le (le_max_right P α0) le_rfl
            _ ≤ max (max P (w m)) α0 := max_le_max (le_max_left P (w m)) le_rfl
        · rcases lt_or_le (w m) β with h2 | h2
          · have he := hKM.inside h h2
            exact ⟨he ▸ le_max_right a s,
              he.symm ▸ (le_max_right P (w m)).trans (le_max_left (max P (w m)) α0)⟩
          · exact absurd (lt_of_le_of_lt ((hKM.high h2).1.trans
              (le_max_right (max α0 a) s)) hW2) (lt_irrefl β)
      have hrec := ih (max P (w m)) (max a s) α0 ((f (push O bd m) (max α0 a) β n).n)
        (max_le (hPa.trans (le_max_left a s)) hsw.1)
        (max_le (haP.trans (max_le_max (le_max_left P (w m)) le_rfl)) hsw.2)
        (by rw [← max_assoc]; exact hW2)
      rwa [← max_assoc] at hrec

/-- The minimizing loop satisfies the dual fail-soft contract. -/
lemma abLoopMinKM {π : Type} (O : Oracle π) (f : Bd π → XScore → XScore → Nat → MRes π)
    (bd : Bd π) (w : Nat → XScore) (α : XScore)
    (hf : ∀ m β' n, α < β' → KM α β' (w m) ((f (push O bd m) α β' n).score))
    (hfb : ∀ bd' α' β' n, (f bd' α' β' n).bd = bd') :
    ∀ ms P a β0 n, a ≤ P → min P β0 ≤ a → α < min β0 a →
      KM α β0 (ms.foldl (fun x m => min x (w m)) P)
        ((abLoopMin O f ms bd a α (min β0 a) n).score) := by
  intro ms
  induction ms with
  | nil =>
    intro P a β0 n haP hPa hW
    have hαβ : α < β0 := lt_of_lt_of_le hW (min_le_left _ _)
    simp only [List.foldl_nil, abLoopMin]
    refine ⟨fun hT => ?_, fun _ h2 => ?_, fun h3 => ⟨(le_min h3 le_rfl).trans hPa, haP⟩⟩
    · exact ⟨(le_min le_rfl (hT.trans hαβ.le)).trans hPa, haP.trans hT⟩
    · exact le_antisymm haP ((le_min le_rfl h2.le).trans hPa)
  | cons m ms ih =>
    intro P a β0 n haP hPa hW
    have hαβ : α < β0 := lt_of_lt_of_le hW (min_le_left _ _)
    have hKM := hf m (min β0 a) n hW
    rw [List.foldl_cons, abLoopMin]
    simp only [hfb, pop_push]
    set s := (f (push O bd m) α (min β0 a) n).score with hs
    by_cases hcut : min (min β0 a) s ≤ α
    · rw [if_pos hcut]
      have hsα : s ≤ α := (min_le_iff.mp hcut).resolve_left (not_le.mpr hW)
      have hwm : w m ≤ α := by
        rcases lt_or_le α (w m) with h | h
        · rcases lt_or_le (w m) (min β0 a) with h2 | h2
          · exact absurd hsα (not_le.mpr (hKM.inside h h2 ▸ h))
          · exact absurd hsα (not_le.mpr (lt_of_lt_of_le hW (hKM.high h2).1))
        · exact h
      have hKM1 := hKM.low hwm
      have Twm : (ms.foldl (fun x m => min x (w m)) (min P (w m))) ≤ w m :=
        le_trans (foldl_min_le_init w ms (min P (w m))) (min_le_right P (w m))
      have hwa : w m ≤ a :=
        le_trans (hwm.trans hW.le) (min_le_right β0 a)
      refine ⟨fun _ => ?_, fun h1 _ => ?_, fun h3 => ?_⟩
      · exact ⟨le_min (Twm.trans hwa) (Twm.trans hKM1.1), (min_le_right a s).trans hKM1.2⟩
      · exact absurd h1 (not_lt.mpr (Twm.trans hwm))
      · exact absurd h3 (not_le.mpr (lt_of_le_of_lt (Twm.trans hwm) hαβ))
    · rw [if_neg hcut]
      have hW2 : α < min (min β0 a) s := not_le.mp hcut
      have hsw : min a s ≤ w m ∧ min (min P (w m)) β0 ≤ s := by
        rcases lt_or_le α (w m) with h | h
        · rcases lt_or_le (w m) (min β0 a) with h2 | h2
          · have he := hKM.inside h h2
            exact ⟨he ▸ min_le_right a s,
              he.symm ▸ (min_le_left (min P (w m)) β0).trans (min_le_right P (w m))⟩
          · have h3 := hKM.high h2
            refine ⟨(min_le_right a s).trans h3.2, ?_⟩
            calc min (min P (w m)) β0 ≤ min P β0 := min_le_min (min_le_left P (w m)) le_rfl
              _ ≤ min β0 (min P β0) := le_min (min_le_right P β0) le_rfl
              _ ≤ min β0 a := min_le_min le_rfl hPa
              _ ≤ s := h3.1
        · exact absurd (lt_of_lt_of_le hW2 ((min_le_right (min β0 a) s).trans (hKM.low h).2))
            (lt_irrefl α)
      have hrec := ih (min P (w m)) (min a s) β0 ((f (push O bd m) α (min β0 a) n).n)
        (le_min ((min_le_left a s).trans haP) hsw.1)
        (le_min ((min_le_min (min_le_left P (w m)) le_rfl).trans hPa) hsw.2)
        (by rw [← min_assoc]; exact hW2)
      rwa [← min_assoc] at hrec

/-- `_minimax` satisfies the fail-soft Knuth-Moore contract against the
unpruned minimax value of the same position, for every window with
`alpha < beta` (the only windows the algorithm ever produces). -/
lemma minimaxKM {π : Type} (O : Oracle π) :
    ∀ d mx bd α β n, α < β →
      KM α β (plainMinimax O d mx bd.1) ((minimax O d mx bd α β n).score) := by
  intro d
  induction d with
  | zero =>
    intro mx bd α β n _
    exact KM_self α β _
  | succ d ih =>
    intro mx bd α β n h
    by_cases hover : O.isGameOver bd.1
    · simp only [minimax, plainMinimax, hover, if_true]
      exact KM_self α β _
    · cases mx with
      | false =>
        simp only [minimax, plainMinimax, hover, Bool.false_eq_true, if_false, if_neg]
        have hw := abLoopMinKM O (minimax O d true) bd
          (fun m => plainMinimax O d true (O.apply bd.1 m)) α
          (fun m β' n' h' => ih true (push O bd m) α β' n' h')
          (fun bd' α' β' n' => minimax_bd O d true bd' α' β' n')
          (O.legalMoves bd.1) ⊤ ⊤ β (n + 1) le_rfl (min_le_left _ _)
          (by rw [min_eq_left le_top]; exact h)
        rwa [min_eq_left le_top] at hw
      | true =>
        simp only [minimax, plainMinimax, hover, if_true, if_neg]
        have hw := abLoopMaxKM O (minimax O d false) bd
          (fun m => plainMinimax O d false (O.apply bd.1 m)) β
          (fun m α' n' h' => ih false (push O bd m) α' β n' h')
          (fun bd' α' β' n' => minimax_bd O d false bd' α' β' n')
          (O.legalMoves bd.1) ⊥ ⊥ α (n + 1) le_rfl (le_max_left _ _)
          (by rw [max_eq_left bot_le]; exact h)
        rwa [max_eq_left bot_le] at hw

/-- At the full window the fail-soft search returns exactly the unpruned
minimax value. -/
lemma minimax_fullWindow {π : Type} (O : Oracle π) (d : Nat) (mx : Bool) (bd : Bd π)
    (n : Nat) : (minimax O d mx bd ⊥ ⊤ n).score = plainMinimax O d mx bd.1 := by
  have h := minimaxKM O d mx bd ⊥ ⊤ n XScore.bot_lt_top
  rcases le_or_lt (plainMinimax O d mx bd.1) ⊥ with hT | hT
  · have h1 := h.low hT
    exact (le_antisymm h1.2 bot_le).trans (le_antisymm hT bot_le).symm
  · rcases lt_or_le (plainMinimax O d mx bd.1) ⊤ with hT2 | hT2
    · exact h.inside hT hT2
    · have h3 := h.high hT2
      exact le_antisymm h3.2 (le_top.trans h3.1)

/-! ## Finiteness of scores over a well-formed oracle -/

lemma XScore.fin_le_fin {j k : Int} : XScore.fin j ≤ XScore.fin k ↔ j ≤ k := by
  show XScore.ble (XScore.fin j) (XScore.fin k) = true ↔ j ≤ k
  simp [XScore.ble]

lemma XScore.fin_max (j k : Int) : max (XScore.fin j) (XScore.fin k) = XScore.fin (max j k) := by
  rcases le_total j k with h | h
  · rw [max_eq_right h, max_eq_right (XScore.fin_le_fin.mpr h)]
  · rw [max_eq_left h, max_eq_left (XScore.fin_le_fin.mpr h)]

lemma XScore.fin_min (j k : Int) : min (XScore.fin j) (XScore.fin k) = XScore.fin (min j k) := by
  rcases le_total j k with h | h
  · rw [min_eq_left h, min_eq_left (XScore.fin_le_fin.mpr h)]
  · rw [min_eq_right h, min_eq_right (XScore.fin_le_fin.mpr h)]

lemma abLoopMax_fin {π : Type} (O : Oracle π) (f : Bd π → XScore → XScore → Nat → MRes π)
    (hf : ∀ bd' α' β' n', ∃ k, (f bd' α' β' n').score = .fin k) :
    ∀ ms bd a α β n, ((∃ k, a = XScore.fin k) ∨ ms ≠ []) → a ≠ ⊤ →
      ∃ k, (abLoopMax O f ms bd a α β n).score = .fin k := by
  intro ms
  induction ms with
  | nil =>
    intro bd a α β n h ha
    rcases h with ⟨k, rfl⟩ | h
    · exact ⟨k, rfl⟩
    · exact absurd rfl h
  | cons m ms ih =>
    intro bd a α β n _ ha
    obtain ⟨k, hk⟩ := hf (push O bd m) α β n
    rw [abLoopMax]
    simp only [hk]
    have hfin : ∃ j, max a (XScore.fin k) = XScore.fin j := by
      cases a with
      | negInf => exact ⟨k, max_eq_right bot_le⟩
      | fin j => exact ⟨max j k, XScore.fin_max j k⟩
      | posInf => exact absurd rfl ha
    obtain ⟨j, hj⟩ := hfin
    by_cases hcut : β ≤ max α (XScore.fin k)
    · rw [if_pos hcut]
      exact ⟨j, hj⟩
    · rw [if_neg hcut]
      exact ih _ _ _ _ _ (Or.inl ⟨j, hj⟩) (hj ▸ fun hh => XScore.noConfusion hh)

lemma abLoopMin_fin {π : Type} (O : Oracle π) (f : Bd π → XScore → XScore → Nat → MRes π)
    (hf : ∀ bd' α' β' n', ∃ k, (f bd' α' β' n').score = .fin k) :
    ∀ ms bd a α β n, ((∃ k, a = XScore.fin k) ∨ ms ≠ []) → a ≠ ⊥ →
      ∃ k, (abLoopMin O f ms bd a α β n).score = .fin k := by
  intro ms
  induction ms with
  | nil =>
    intro bd a α β n h ha
    rcases h with ⟨k, rfl⟩ | h
    · exact ⟨k, rfl⟩
    · exact absurd rfl h
  | cons m ms ih =>
    intro bd a α β n _ ha
    obtain ⟨k, hk⟩ := hf (push O bd m) α β n
    rw [abLoopMin]
    simp only [hk]
    have hfin : ∃ j, min a (XScore.fin k) = XScore.fin j := by
      cases a with
      | negInf => exact absurd rfl ha
      | fin j => exact ⟨min j k, XScore.fin_min j k⟩
      | posInf => exact ⟨k, min_eq_right le_top⟩
    obtain ⟨j, hj⟩ := hfin
    by_cases hcut : min β (XScore.fin k) ≤ α
    · rw [if_pos hcut]
      exact ⟨j, hj⟩
    · rw [if_neg hcut]
      exact ih _ _ _ _ _ (Or.inl ⟨j, hj⟩) (hj ▸ fun hh => XScore.noConfusion hh)

/-- Over a well-formed oracle (no legal moves only on terminal positions)
`_minimax` always returns a finite score, never one of the float
infinities. -/
lemma minimax_fin {π : Type} (O : Oracle π) (hwf : WfOracle O) :
    ∀ d mx bd α β n, ∃ k, (minimax O d mx bd α β n).score = .fin k := by
  intro d
  induction d with
  | zero => intro mx bd α β n; exact ⟨O.eval bd.1, rfl⟩
  | succ d ih =>
    intro mx bd α β n
    by_cases hover : O.isGameOver bd.1
    · exact ⟨O.eval bd.1, by simp [minimax, hover]⟩
    · have hne : O.legalMoves bd.1 ≠ [] := fun hh => hover (hwf bd.1 hh)
      cases mx with
      | false =>
        simp only [minimax, hover, Bool.false_eq_true, if_false, if_neg]
        exact abLoopMin_fin O (minimax O d true) (ih true) (O.legalMoves bd.1) bd ⊤ α β (n + 1)
          (Or.inr hne) (fun hh => XScore.noConfusion hh)
      | true =>
        simp only [minimax, hover, if_true, if_neg]
        exact abLoopMax_fin O (minimax O d false) (ih false) (O.legalMoves bd.1) bd ⊥ α β (n + 1)
          (Or.inr hne) (fun hh => XScore.noConfusion hh)

/-! ## The root loop always selects a move -/

lemma rootLoop_some_mono {π : Type} (O : Oracle π) (f : Bd π → XScore → XScore → Nat → MRes π) :
    ∀ ms bd x best α β n, ∃ y, (rootLoop O f ms bd (some x) best α β n).bm = some y := by
  intro ms
  induction ms with
  | nil => intro bd x best α β n; exact ⟨x, rfl⟩
  | cons m ms ih =>
    intro bd x best α β n
    rw [rootLoop]
    by_cases hlt : best < (f (push O bd m) β.neg α.neg n).score.neg
    · simp only [hlt, if_true]
      exact ih _ m _ _ _ _
    · simp only [hlt, if_false]
      exact ih _ x _ _ _ _

/-- With finite child scores, the very first root move strictly beats the
`-inf` initializer, so the scored comparison selects a move. -/
lemma rootLoop_first_some {π : Type} (O : Oracle π) (f : Bd π → XScore → XScore → Nat → MRes π)
    (hf : ∀ bd' α' β' n', ∃ k, (f bd' α' β' n').score = .fin k) :
    ∀ m ms bd α β n, ∃ y, (rootLoop O f (m :: ms) bd none ⊥ α β n).bm = some y := by
  intro m ms bd α β n
  obtain ⟨k, hk⟩ := hf (push O bd m) β.neg α.neg n
  rw [rootLoop]
  simp only [hk]
  have hlt : (⊥ : XScore) < (XScore.fin k).neg := XScore.bot_lt_fin (-k)
  simp only [hlt, if_true]
  exact rootLoop_some_mono O f ms _ m _ _ _ _

/-! ## Controller lemmas -/

/-- Under the oracle contract and the controller preconditions, the scored
comparison always selects a move (the fallback `random.choice` branch is
dead) and `get_best_move` returns it, whatever the RNG state and the stale
instance fields. -/
lemma gbm_ok {π : Type} (O : Oracle π) (hwf : WfOracle O) (p : π) (depth : Nat)
    (hover : O.isGameOver p = false) (hne : O.legalMoves p ≠ []) :
    ∃ m, (rootLoop O (minimax O (depth - 1) false) (O.legalMoves p) (p, []) none ⊥ ⊥ ⊤ 0).bm
        = some m ∧
      ∀ ch n0 pv0, get_best_move O p depth ch n0 pv0 = .ok
        ⟨m, (rootLoop O (minimax O (depth - 1) false) (O.legalMoves p) (p, []) none ⊥ ⊥ ⊤ 0).best,
         depth,
         (rootLoop O (minimax O (depth - 1) false) (O.legalMoves p) (p, []) none ⊥ ⊥ ⊤ 0).n,
         [m]⟩ := by
  obtain ⟨m, ms, hms⟩ : ∃ m ms, O.legalMoves p = m :: ms := by
    cases h : O.legalMoves p with
    | nil => exact absurd h hne
    | cons a l => exact ⟨a, l, rfl⟩
  obtain ⟨y, hy⟩ : ∃ y,
      (rootLoop O (minimax O (depth - 1) false) (O.legalMoves p) (p, []) none ⊥ ⊥ ⊤ 0).bm
        = some y := by
    rw [hms]
    exact rootLoop_first_some O _
      (fun bd' α' β' n' => minimax_fin O hwf (depth - 1) false bd' α' β' n') m ms (p, []) ⊥ ⊤ 0
  refine ⟨y, hy, fun ch n0 pv0 => ?_⟩
  simp only [get_best_move, hover, Bool.false_eq_true, if_false]
  rw [if_neg (by simp [hms])]
  rw [hy]

/-- The node count reported by `get_best_move` is the activation count of
the root loop, in every successful return (scored or fallback). -/
lemma gbm_nodes {π : Type} (O : Oracle π) (p : π) (depth : Nat) (ch : List Nat → Nat)
    (n0 : Nat) (pv0 : List Nat) (r : SearchResult)
    (h : get_best_move O p depth ch n0 pv0 = .ok r) :
    r.nodes = nodesCounted O p depth := by
  have hn : (rootLoop O (minimax O (depth - 1) false) (O.legalMoves p) (p, []) none ⊥ ⊥ ⊤ 0).n
      = nodesCounted O p depth := by
    rw [rootLoop_inst_state]
    simp [nodesCounted]
  simp only [get_best_move] at h
  split at h
  · exact Except.noConfusion h
  · split at h
    · exact Except.noConfusion h
    · split at h
      · rw [← Except.ok.inj h]
        exact hn
      · rw [← Except.ok.inj h]
        exact hn

lemma countActs_pos {π : Type} (O : Oracle π) :
    ∀ d mx bd α β, 1 ≤ countActs O d mx bd α β := by
  intro d mx bd α β
  cases d with
  | zero => simp [countActs]
  | succ d =>
    by_cases hover : O.isGameOver bd.1
    · simp [countActs, hover]
    · cases mx <;> simp [countActs, hover]

lemma rootCount_depth0 {π : Type} (O : Oracle π) :
    ∀ ms bd α β, rootCount O (minimax O 0 false) (countActs O 0 false) ms bd α β
      = ms.length := by
  intro ms
  induction ms with
  | nil => intro bd α β; simp [rootCount]
  | cons m ms ih =>
    intro bd α β
    simp only [rootCount, List.length_cons, ih]
    simp [countActs, Nat.add_comm]

lemma rootCount_ge_length {π : Type} (O : Oracle π)
    (f : Bd π → XScore → XScore → Nat → MRes π) (g : Bd π → XScore → XScore → Nat)
    (hg : ∀ bd α β, 1 ≤ g bd α β) :
    ∀ ms bd α β, ms.length ≤ rootCount O f g ms bd α β := by
  intro ms
  induction ms with
  | nil => intro bd α β; simp [rootCount]
  | cons m ms ih =>
    intro bd α β
    simp only [rootCount, List.length_cons]
    have h1 := hg (push O bd m) β.neg α.neg
    have h2 := ih bd (max α ((f (push O bd m) β.neg α.neg 0).score).neg) β
    omega

/-! ## Claim theorems -/

/-- C1: FALSE of the code — the root loop does NOT consume the recursive
search's absolute scores directly.  Line 83 negates `_minimax`'s result and
passes the negated window `(-beta, -alpha)` although `_minimax` returns
absolute reference-side scores, so on a white-to-move position with a +450
and a -650 continuation `get_best_move` selects the losing move (reporting
its score negated as +650), while the consistent classic-minimax controller
(`spec_get_best_move`, spec convention (a)) selects the winning one. -/
theorem c1_root_negation_divergence :
    get_best_move oracleC1 0 1 ch0 0 [] = .ok ⟨1, .fin 650, 1, 2, [1]⟩ ∧
    spec_get_best_move oracleC1 0 1 = .ok ⟨0, .fin 450, 1, 2, [0]⟩ ∧
    oracleC1.eval 1 = 450 ∧ oracleC1.eval 2 = -650 :=
  ⟨by decide, by decide, by decide, by decide⟩

/-- C2: FALSE of the code — on a white-to-move mate-in-one position at depth
1, `get_best_move` returns the quiet move (position 2, score reported
-490 centipawns), not the mating move (position 1), even though the mating
child evaluates to the full +20000 mate score: the root negation turns the
best child into the worst root score. -/
theorem c2_mate_in_one_missed :
    get_best_move oracleC2 0 1 ch0 0 [] = .ok ⟨1, .fin (-490), 1, 2, [1]⟩ ∧
    oracleC2.eval 1 = 20000 ∧ oracleC2.isGameOver 1 = true :=
  ⟨by decide, by decide, by decide⟩

/-- C3: for every position, depth and maximizing flag, the fail-soft
alpha-beta search `_minimax` called with the full window
`(alpha, beta) = (-inf, +inf)` returns exactly the value of the full
unpruned minimax over the same game tree (same oracle move order, same leaf
evaluator); pruning can only change the node count, never the score. -/
theorem c3_pruning_equivalence (π : Type) (O : Oracle π) (d : Nat) (mx : Bool)
    (bd : Bd π) (n : Nat) :
    (minimax O d mx bd ⊥ ⊤ n).score = plainMinimax O d mx bd.1 :=
  minimax_fullWindow O d mx bd n

/-- C4: on the canonical initial chess position (standard placement, white
to move, 20 legal moves) `_evaluate` returns exactly +200 centipawns:
material and table contributions cancel by the mirror symmetry and the
mobility term contributes 10 * 20. -/
theorem c4_start_position_eval : evaluate startBoard true false false false 20 = 200 := by
  decide

/-- C5: every push is matched by a pop on every path, including the cutoff
exits: both `_minimax` and the root loop of `get_best_move` return the
board exactly as they received it, for all windows, depths and counters. -/
theorem c5_state_restoration :
    (∀ (π : Type) (O : Oracle π) (d : Nat) (mx : Bool) (bd : Bd π) (α β : XScore) (n : Nat),
      (minimax O d mx bd α β n).bd = bd) ∧
    (∀ (π : Type) (O : Oracle π) (d : Nat) (ms : List Nat) (bd : Bd π) (bm : Option Nat)
      (best α β : XScore) (n : Nat),
      (rootLoop O (minimax O d false) ms bd bm best α β n).bd = bd) := by
  constructor
  · intro π O d mx bd α β n
    exact minimax_bd O d mx bd α β n
  · intro π O d ms bd bm best α β n
    rw [rootLoop_inst_state]

/-- C6: every `_minimax` activation (leaves and terminal nodes included)
advances the node counter by exactly one plus its explored children's
activations — the counter leaving an activation is the counter entering it
plus the pure activation count — and `get_best_move`, which resets the
counter at entry (its result ignores the stale `nodes0`/`pv0` instance
state), reports exactly the total activation count of its invocation. -/
theorem c6_node_counting :
    (∀ (π : Type) (O : Oracle π) (d : Nat) (mx : Bool) (bd : Bd π) (α β : XScore) (n : Nat),
      (minimax O d mx bd α β n).n = n + countActs O d mx bd α β) ∧
    (∀ (π : Type) (O : Oracle π) (p : π) (depth : Nat) (ch : List Nat → Nat) (n0 : Nat)
      (pv0 : List Nat) (r : SearchResult),
      get_best_move O p depth ch n0 pv0 = .ok r → r.nodes = nodesCounted O p depth) := by
  constructor
  · intro π O d mx bd α β n
    exact minimax_n O d mx bd α β n
  · intro π O p depth ch n0 pv0 r h
    exact gbm_nodes O p depth ch n0 pv0 r h

/-- C6 witness: on the concrete well-formed oracle at depth 2 the reported
node count equals the activation count (2). -/
theorem c6_node_counting_witness :
    get_best_move oracleW 0 2 ch0 0 [] = .ok ⟨1, .fin 3, 2, 2, [1]⟩ ∧
    (⟨1, .fin 3, 2, 2, [1]⟩ : SearchResult).nodes = nodesCounted oracleW 0 2 :=
  ⟨by decide, c6_node_counting.2 (Fin 3) oracleW 0 2 ch0 0 [] _ (by decide)⟩

/-- C7: `get_best_move` raises the game-over error exactly on terminal
positions, the no-legal-moves error exactly on non-terminal positions with
an empty legal-move list, and returns normally on every non-terminal
position with at least one legal move; both errors depend on the input
position only (never on the RNG, the stale counters or the depth). -/
theorem c7_error_contract (π : Type) (O : Oracle π) (p : π) (depth : Nat)
    (ch : List Nat → Nat) (n0 : Nat) (pv0 : List Nat) :
    (get_best_move O p depth ch n0 pv0 = .error .gameOver ↔ O.isGameOver p = true) ∧
    (get_best_move O p depth ch n0 pv0 = .error .noLegalMoves ↔
      (O.isGameOver p = false ∧ O.legalMoves p = [])) ∧
    (O.isGameOver p = false → O.legalMoves p ≠ [] →
      ∃ r, get_best_move O p depth ch n0 pv0 = .ok r) := by
  by_cases hover : O.isGameOver p = true
  · have h1 : get_best_move O p depth ch n0 pv0 = .error .gameOver := by
      simp [get_best_move, hover]
    refine ⟨⟨fun _ => hover, fun _ => h1⟩, ⟨fun h => ?_, fun h => ?_⟩, fun h => ?_⟩
    · rw [h1] at h
      exact EngineError.noConfusion (Except.error.inj h)
    · rw [h.1] at hover
      exact Bool.noConfusion hover
    · rw [h] at hover
      exact Bool.noConfusion hover
  · have hover' : O.isGameOver p = false := by
      revert hover
      cases O.isGameOver p <;> simp
    by_cases hemp : O.legalMoves p = []
    · have h1 : get_best_move O p depth ch n0 pv0 = .error .noLegalMoves := by
        simp [get_best_move, hover', hemp]
      refine ⟨⟨fun h => ?_, fun h => ?_⟩, ⟨fun _ => ⟨hover', hemp⟩, fun _ => h1⟩, fun _ h => ?_⟩
      · rw [h1] at h
        exact absurd (Except.error.inj h) (fun hh => EngineError.noConfusion hh)
      · rw [h] at hover'
        exact Bool.noConfusion hover'
      · exact absurd hemp h
    · have h1 : ∃ r, get_best_move O p depth ch n0 pv0 = .ok r := by
        simp only [get_best_move, hover', Bool.false_eq_true, if_false]
        rw [if_neg (by simp [List.isEmpty_iff, hemp])]
        rcases (rootLoop O (minimax O (depth - 1) false) (O.legalMoves p) (p, [])
            none ⊥ ⊥ ⊤ 0).bm with _ | m
        · exact ⟨_, rfl⟩
        · exact ⟨_, rfl⟩
      obtain ⟨r, hr⟩ := h1
      refine ⟨⟨fun h => ?_, fun h => ?_⟩, ⟨fun h => ?_, fun h => ?_⟩, fun _ _ => ⟨r, hr⟩⟩
      · rw [hr] at h
        exact Except.noConfusion h
      · rw [h] at hover
        exact absurd rfl hover
      · rw [hr] at h
        exact Except.noConfusion h
      · exact absurd h.2 hemp

/-- C7 witness: concrete instances of the three branches of the error
contract on the small well-formed oracle. -/
theorem c7_error_contract_witness :
    oracleW.isGameOver 0 = false ∧ oracleW.legalMoves 0 ≠ [] ∧
    ∃ r, get_best_move oracleW 0 1 ch0 0 [] = .ok r :=
  ⟨by decide, by decide,
    (c7_error_contract (Fin 3) oracleW 0 1 ch0 0 []).2.2 (by decide) (by decide)⟩

/-- C8: FALSE as stated — nodes searched is not monotone in the configured
depth.  On the concrete game tree `oracleC8`, depth 3 searches 8 nodes but
depth 4 searches only 7: the deeper values flip a cutoff decision and prune
a subtree that the shallower search had to visit in full. -/
theorem c8_nodes_nonmonotone :
    ∃ r3 r4 : SearchResult,
      get_best_move oracleC8 0 3 ch0 0 [] = .ok r3 ∧
      get_best_move oracleC8 0 4 ch0 0 [] = .ok r4 ∧
      r4.nodes < r3.nodes :=
  ⟨⟨0, .fin 1, 3, 8, [0]⟩, ⟨0, .fin 0, 4, 7, [0]⟩, by decide, by decide, by decide⟩

/-- C8 (amended): from depth 1 to depth 2 the node count is monotone: at
depth 1 every root move costs exactly one activation, at depth 2 at least
one. -/
theorem c8_nodes_monotone_d1 (π : Type) (O : Oracle π) (p : π)
    (ch ch' : List Nat → Nat) (n0 n0' : Nat) (pv0 pv0' : List Nat) (r1 r2 : SearchResult)
    (h1 : get_best_move O p 1 ch n0 pv0 = .ok r1)
    (h2 : get_best_move O p 2 ch' n0' pv0' = .ok r2) :
    r1.nodes ≤ r2.nodes := by
  rw [gbm_nodes O p 1 ch n0 pv0 r1 h1, gbm_nodes O p 2 ch' n0' pv0' r2 h2]
  unfold nodesCounted
  rw [rootCount_depth0]
  exact rootCount_ge_length O _ _ (fun bd α β => countActs_pos O 1 false bd α β) _ _ _ _

/-- C8 (amended) witness: on the counterexample oracle itself the depth
1 -> 2 step is monotone (1 <= 3 nodes). -/
theorem c8_nodes_monotone_d1_witness :
    get_best_move oracleC8 0 1 ch0 0 [] = .ok ⟨0, .fin 0, 1, 1, [0]⟩ ∧
    get_best_move oracleC8 0 2 ch0 0 [] = .ok ⟨0, .fin 0, 2, 3, [0]⟩ ∧
    (⟨0, .fin 0, 1, 1, [0]⟩ : SearchResult).nodes ≤
      (⟨0, .fin 0, 2, 3, [0]⟩ : SearchResult).nodes :=
  ⟨by decide, by decide,
    c8_nodes_monotone_d1 (Fin 12) oracleC8 0 ch0 ch0 0 0 [] [] _ _ (by decide) (by decide)⟩

/-- C9: under the oracle contract (no legal moves only on terminal
positions) and the controller preconditions, the first root move already
scores strictly above the `-inf` initializer (all child searches return
finite scores), so the scored comparison selects a move and the
`random.choice` fallback branch is unreachable: the returned move is the
one the root loop selected, for every RNG state and stale instance state. -/
theorem c9_fallback_unreachable (π : Type) (O : Oracle π) (p : π) (depth : Nat)
    (hwf : WfOracle O) (hover : O.isGameOver p = false) (hne : O.legalMoves p ≠ [])
    (_hd : 1 ≤ depth) :
    ∃ m, (rootLoop O (minimax O (depth - 1) false) (O.legalMoves p) (p, []) none ⊥ ⊥ ⊤ 0).bm
        = some m ∧
      ∀ ch n0 pv0, get_best_move O p depth ch n0 pv0 = .ok
        ⟨m, (rootLoop O (minimax O (depth - 1) false) (O.legalMoves p) (p, []) none ⊥ ⊥ ⊤ 0).best,
         depth,
         (rootLoop O (minimax O (depth - 1) false) (O.legalMoves p) (p, []) none ⊥ ⊥ ⊤ 0).n,
         [m]⟩ :=
  gbm_ok O hwf p depth hover hne

/-- C9 witness: on the concrete well-formed oracle the scored comparison
selects a move. -/
theorem c9_fallback_unreachable_witness :
    WfOracle oracleW ∧ oracleW.isGameOver 0 = false ∧ oracleW.legalMoves 0 ≠ [] ∧
    ∃ m, (rootLoop oracleW (minimax oracleW 0 false) (oracleW.legalMoves 0) ((0 : Fin 3), [])
        none ⊥ ⊥ ⊤ 0).bm = some m ∧
      ∀ ch n0 pv0, get_best_move oracleW 0 1 ch n0 pv0 = .ok
        ⟨m, (rootLoop oracleW (minimax oracleW 0 false) (oracleW.legalMoves 0) ((0 : Fin 3), [])
            none ⊥ ⊥ ⊤ 0).best, 1,
         (rootLoop oracleW (minimax oracleW 0 false) (oracleW.legalMoves 0) ((0 : Fin 3), [])
            none ⊥ ⊥ ⊤ 0).n, [m]⟩ :=
  ⟨by decide, by decide, by decide,
    c9_fallback_unreachable (Fin 3) oracleW 0 1 (by decide) (by decide) (by decide) (by decide)⟩

/-- C10: `get_best_move` is a deterministic function of the position and
the configured depth: over any oracle satisfying the rules-engine contract,
its result does not depend on the RNG behind `random.choice` (the fallback
is unreachable) nor on the stale `nodes_searched`/`pv` instance fields left
by previous invocations (they are reset at entry). -/
theorem c10_deterministic (π : Type) (O : Oracle π) (hwf : WfOracle O) (p : π) (depth : Nat)
    (ch ch' : List Nat → Nat) (n0 n0' : Nat) (pv0 pv0' : List Nat) :
    get_best_move O p depth ch n0 pv0 = get_best_move O p depth ch' n0' pv0' := by
  by_cases hover : O.isGameOver p = true
  · simp [get_best_move, hover]
  · have hover' : O.isGameOver p = false := by
      revert hover
      cases O.isGameOver p <;> simp
    by_cases hemp : O.legalMoves p = []
    · simp [get_best_move, hover', hemp]
    · obtain ⟨m, _, hgo⟩ := gbm_ok O hwf p depth hover' hemp
      rw [hgo ch n0 pv0, hgo ch' n0' pv0']

/-- C10 witness: two calls with different RNG stand-ins and different stale
instance state coincide on the concrete well-formed oracle. -/
theorem c10_deterministic_witness :
    WfOracle oracleW ∧
    get_best_move oracleW 0 1 ch0 5 [9] = get_best_move oracleW 0 1 (fun l => l.headD 1) 0 [] :=
  ⟨by decide, c10_deterministic (Fin 3) oracleW (by decide) 0 1 ch0 (fun l => l.headD 1) 5 0 [9] []⟩
